import Mathlib

/-!
Verification development for the BSG-CollatzAlgorithm repository.

The repository has two Python source files:

* src/collatz_generator.py — a deterministic, seed-driven balanced-bit
  generator built on the classic Collatz step.
* src/secure_collatz.py — a variant that seeds from a cryptographic
  random source, perturbs the odd step with an HMAC-derived constant,
  and runs two statistical self-tests on the output.

The definitions below are shallow embeddings of those files.  Machine
integers are modelled as Nat (the spec data model states that the
recurrence state is an arbitrary-precision non-negative integer, the
secure seed is a 256-bit random value, and length is a non-negative
even integer).  The Python while-loop is modelled with explicit fuel:
a result of fuelOut means the loop did not finish within the given
number of iterations, ok gives the string the function returned, and
exit models the print-then-sys.exit(1) path for odd lengths, which
raises SystemExit and (being uncaught in both programs) terminates the
host process.  The HMAC-SHA256 digest function and the entropy source
of the secure variant are abstracted as oracle parameters: a digest
oracle H taking the key bytes and the message bytes, and an entropy
stream giving the result of the i-th secrets.randbits(256) call.
Floats of the statistical evaluator are modelled as exact rationals,
except the z-score whose square root is taken in the reals.
-/

/-- Result of one generation request.  ok is a normal return, fuelOut
means the while-loop was cut off by fuel (the Python loop is unbounded
and may diverge), exit code models print + sys.exit(code). -/
inductive GenResult where
  | exit (code : Nat) : GenResult
  | fuelOut : GenResult
  | ok (pw : List Char) : GenResult
deriving DecidableEq, Repr

/-- SystemExit raised by sys.exit is not an Exception subclass, so no
handler in either program catches it: a GenResult.exit outcome
terminates the host process. -/
def resultExitsProcess : GenResult → Bool
  | GenResult.exit _ => true
  | _ => false

/-- State of the quota-gated accumulator after one acceptance check:
the zeros and ones counters and the password list.  Mirrors the local
variables current_zeros, current_ones, password of both generators. -/
structure Accept where
  zeros : Nat
  ones : Nat
  pw : List Char
deriving DecidableEq, Repr

/-- One acceptance check of the bit extractor, shared verbatim by
collatz_generator.py lines 32-39 and secure_collatz.py lines 78-85:
append the candidate bit and bump its counter only while that counter
is below the quota req (= length // 2), otherwise discard it. -/
def acceptBit (req : Nat) (bit : Char) (zeros ones : Nat) (pw : List Char) : Accept :=
  if bit = '0' then
    if zeros < req then ⟨zeros + 1, ones, pw ++ ['0']⟩ else ⟨zeros, ones, pw⟩
  else
    if ones < req then ⟨zeros, ones + 1, pw ++ ['1']⟩ else ⟨zeros, ones, pw⟩

/-- The extraction while-loop of both generators (collatz_generator.py
lines 27-45, secure_collatz.py lines 70-92), parameterized by the bit
mapping bitOf and the state advance stepf, with explicit fuel.  Each
iteration derives a candidate bit from the current state, runs the
acceptance check, and advances the state via stepf regardless of
acceptance; the loop returns the accumulator once its length reaches
the target length. -/
def extractLoop {σ : Type} (bitOf : σ → Char) (stepf : σ → σ) (length req : Nat) :
    Nat → σ → Nat → Nat → List Char → Option (List Char × σ)
  | 0, _, _, _, _ => none
  | fuel + 1, st, zeros, ones, pw =>
    if pw.length < length then
      let a := acceptBit req (bitOf st) zeros ones pw
      extractLoop bitOf stepf length req fuel (stepf st) a.zeros a.ones a.pw
    else
      some (pw, st)

namespace CollatzGenerator

/-- collatz_generator.py lines 5-9: the plain Collatz step. -/
def collatz_step (n : Nat) : Nat :=
  if n % 2 = 0 then n / 2 else 3 * n + 1

/-- collatz_generator.py line 29: bit value of a state, 0 if even,
1 if odd. -/
def plainBit (n : Nat) : Char :=
  if n % 2 = 0 then '0' else '1'

/-- collatz_generator.py lines 11-47: generate_password.  Odd length
prints an error and calls sys.exit(1); otherwise the quota-gated
extraction loop runs from the given seed. -/
def generate_password (seed length : Nat) (fuel : Nat) : GenResult :=
  if length % 2 ≠ 0 then GenResult.exit 1
  else
    match extractLoop plainBit collatz_step length (length / 2) fuel seed 0 0 [] with
    | none => GenResult.fuelOut
    | some (pw, _) => GenResult.ok pw

end CollatzGenerator

namespace SecureCollatz

/-- Big-endian serialization of n into exactly len bytes, the model of
Python int.to_bytes(len, byteorder=big). -/
def toBytesBE : Nat → Nat → List Nat
  | 0, _ => []
  | len + 1, n => toBytesBE len (n / 256) ++ [n % 256]

/-- Big-endian value of a byte list, the model of Python
int.from_bytes(bs, byteorder=big). -/
def fromBytesBE (bs : List Nat) : Nat :=
  bs.foldl (fun acc b => acc * 256 + b) 0

/-- secure_collatz.py lines 17-19: the byte length used to serialize
n, (n.bit_length() + 7) // 8, forced to at least 1; Nat.size n models
Python n.bit_length(). -/
def byteLen (n : Nat) : Nat :=
  let byte_len := (Nat.size n + 7) / 8
  if byte_len = 0 then 1 else byte_len

/-- secure_collatz.py lines 9-33: generate_k_derived.  H is the
HMAC-SHA256 oracle taking key bytes and message bytes to the digest
bytes. -/
def generate_k_derived (H : List Nat → List Nat → List Nat) (n : Nat) (key : List Nat) : Nat :=
  let n_bytes := toBytesBE (byteLen n) n
  let h := H key n_bytes
  let k_candidate := fromBytesBE (h.take 4)
  if k_candidate = 0 then 1 else k_candidate

/-- secure_collatz.py lines 35-45: the keyed Collatz step. -/
def secure_collatz_step (H : List Nat → List Nat → List Nat) (n : Nat) (key : List Nat) : Nat :=
  if n % 2 = 0 then n / 2
  else 3 * n + generate_k_derived H n key

/-- secure_collatz.py lines 74-75: bit value of a state, inverted
relative to the plain generator (even state yields 1, odd yields 0). -/
def secureBit (n : Nat) : Char :=
  let is_even := n % 2 = 0
  if is_even then '1' else '0'

/-- Loop state of the secure generator: the session key bytes, the
current recurrence value n, and the index of the next unconsumed value
of the secrets.randbits(256) entropy stream. -/
structure SecState where
  key : List Nat
  n : Nat
  idx : Nat
deriving DecidableEq, Repr

/-- secure_collatz.py lines 87-92: advance the state by the keyed step
and then run the anti-degeneracy check unconditionally: a new value at
most 1 is replaced by the next fresh 256-bit draw from the entropy
stream.  The key component is never touched. -/
def secureAdvance (H : List Nat → List Nat → List Nat) (entropy : Nat → Nat)
    (st : SecState) : SecState :=
  let n1 := secure_collatz_step H st.n st.key
  if n1 ≤ 1 then ⟨st.key, entropy st.idx, st.idx + 1⟩ else ⟨st.key, n1, st.idx⟩

/-- secure_collatz.py lines 47-94: generate_secure_password.  entropy
models the stream of secrets.randbits(256) results (index 0 is the
initial seed), key models the secrets.token_bytes(32) session key.
Odd length prints an error and calls sys.exit(1) before the seed or
the key is drawn, which is reflected here by the result being the same
for every entropy stream and key. -/
def generate_secure_password (H : List Nat → List Nat → List Nat)
    (entropy : Nat → Nat) (key : List Nat) (length : Nat) (fuel : Nat) : GenResult :=
  if length % 2 ≠ 0 then GenResult.exit 1
  else
    match extractLoop (fun st => secureBit st.n) (secureAdvance H entropy)
        length (length / 2) fuel ⟨key, entropy 0, 1⟩ 0 0 [] with
    | none => GenResult.fuelOut
    | some (pw, _) => GenResult.ok pw

/-- secure_collatz.py line 105: count of the character 0 in the bit
string. -/
def n0 (s : List Char) : Nat := s.count '0'

/-- secure_collatz.py line 106: count of the character 1 in the bit
string. -/
def n1 (s : List Char) : Nat := s.count '1'

/-- secure_collatz.py lines 108-111: the chi-square statistic, float
arithmetic modelled exactly in the rationals. -/
def chiSq (s : List Char) : ℚ :=
  let n := s.length
  let expected_count : ℚ := (n : ℚ) / 2
  ((n0 s : ℚ) - expected_count) ^ 2 / expected_count
    + ((n1 s : ℚ) - expected_count) ^ 2 / expected_count

/-- secure_collatz.py lines 126-128: the inner for-loop of the runs
count, adding 1 at every adjacent position whose character differs
from its predecessor. -/
def adjacentChanges : List Char → Nat
  | [] => 0
  | [_] => 0
  | a :: b :: rest => (if b ≠ a then 1 else 0) + adjacentChanges (b :: rest)

/-- secure_collatz.py lines 123-128: total runs, 0 for an empty
string, otherwise 1 plus the number of adjacent changes. -/
def runsCount (s : List Char) : Nat :=
  if 0 < s.length then 1 + adjacentChanges s else 0

/-- secure_collatz.py line 130: expected runs. -/
def expectedRuns (s : List Char) : ℚ :=
  1 + (2 * (n0 s) * (n1 s) : ℚ) / (s.length : ℚ)

/-- secure_collatz.py lines 132-135: the runs-test variance, computed
in the n > 1 branch with integer numerator and denominator and exact
division; otherwise (the Python leaves it unset and forces z = 0) it
is 0. -/
def variance (s : List Char) : ℚ :=
  let n : ℤ := s.length
  if 1 < s.length then
    let numerator : ℤ := 2 * (n0 s) * (n1 s) * (2 * (n0 s) * (n1 s) - n)
    let denominator : ℤ := n ^ 2 * (n - 1)
    if denominator ≠ 0 then (numerator : ℚ) / (denominator : ℚ) else 0
  else 0

/-- secure_collatz.py lines 136-140: the z-score; the local float
std_dev = math.sqrt(variance) is written out as the real square root
of the variance, and z is 0.0 unless n > 1 and std_dev is positive. -/
noncomputable def zScore (s : List Char) : ℝ :=
  if 1 < s.length then
    if 0 < Real.sqrt ((variance s : ℚ) : ℝ) then
      ((runsCount s : ℝ) - ((expectedRuns s : ℚ) : ℝ)) / Real.sqrt ((variance s : ℚ) : ℝ)
    else 0
  else 0

/-- secure_collatz.py line 117: verdict of the chi-square test. -/
def chiSqPass (s : List Char) : Bool :=
  chiSq s < 3.841

/-- secure_collatz.py line 147: verdict of the runs test. -/
def runsTestPass (s : List Char) : Prop :=
  -1.96 ≤ zScore s ∧ zScore s ≤ 1.96

/-- The statistics the evaluator reports for a non-empty input. -/
structure StatReport where
  chiStat : ℚ
  chiOk : Bool
  runsTotal : Nat
  runsExpected : ℚ
  runsZ : ℝ

/-- secure_collatz.py lines 96-150: perform_statistical_tests returns
immediately when the bit string is empty (none: both tests skipped),
otherwise it reports the chi-square statistic and verdict and the
runs-test statistics. -/
noncomputable def perform_statistical_tests (s : List Char) : Option StatReport :=
  if s.length = 0 then none
  else
    some { chiStat := chiSq s
           chiOk := chiSqPass s
           runsTotal := runsCount s
           runsExpected := expectedRuns s
           runsZ := zScore s }

end SecureCollatz

/-- Number of adjacent positions of a list where the character
changes, stated the way the spec words it: over the pairs of
consecutive elements, count those whose components differ. -/
def specAdjacentChanges (s : List Char) : Nat :=
  ((s.zip s.tail).filter fun p => p.1 != p.2).length

/-- Stated from the spec wording of claim C4: bs is the big-endian
serialization of n of minimal length, at least 1 byte even when n is
0 — every entry is a byte, the big-endian value is n, and no non-empty
byte list of smaller length has value n. -/
def MinimalBE (n : Nat) (bs : List Nat) : Prop :=
  (∀ b ∈ bs, b < 256) ∧ SecureCollatz.fromBytesBE bs = n ∧ 1 ≤ bs.length ∧
    ∀ bs' : List Nat, bs' ≠ [] → (∀ b ∈ bs', b < 256) →
      SecureCollatz.fromBytesBE bs' = n → bs.length ≤ bs'.length

/-- The worked runs-test example of the spec: the bit string 0101. -/
def exBits : List Char := ['0', '1', '0', '1']

/-- Claim C3: the plain stepper maps every even n to n / 2 and every
odd n to 3n + 1; the secure stepper maps every even n to n / 2 and
every odd n to 3n + k with k = generate_k_derived(n, key). -/
theorem stepper_spec :
    (∀ n : Nat, n % 2 = 0 → CollatzGenerator.collatz_step n = n / 2)
  ∧ (∀ n : Nat, n % 2 = 1 → CollatzGenerator.collatz_step n = 3 * n + 1)
  ∧ (∀ (H : List Nat → List Nat → List Nat) (key : List Nat) (n : Nat), n % 2 = 0 →
      SecureCollatz.secure_collatz_step H n key = n / 2)
  ∧ (∀ (H : List Nat → List Nat → List Nat) (key : List Nat) (n : Nat), n % 2 = 1 →
      SecureCollatz.secure_collatz_step H n key
        = 3 * n + SecureCollatz.generate_k_derived H n key) := by
  refine ⟨fun n h => ?_, fun n h => ?_, fun H key n h => ?_, fun H key n h => ?_⟩ <;>
    simp [CollatzGenerator.collatz_step, SecureCollatz.secure_collatz_step, h]

/-- Witness for stepper_spec at the even state 4 and the odd state 3,
with a constant digest oracle and the empty key. -/
theorem stepper_spec_witness :
    CollatzGenerator.collatz_step 4 = 4 / 2
  ∧ CollatzGenerator.collatz_step 3 = 3 * 3 + 1
  ∧ SecureCollatz.secure_collatz_step (fun _ _ => [0, 0, 0, 1]) 4 [] = 4 / 2
  ∧ SecureCollatz.secure_collatz_step (fun _ _ => [0, 0, 0, 1]) 3 []
      = 3 * 3 + SecureCollatz.generate_k_derived (fun _ _ => [0, 0, 0, 1]) 3 [] :=
  ⟨stepper_spec.1 4 rfl, stepper_spec.2.1 3 rfl,
   stepper_spec.2.2.1 _ [] 4 rfl, stepper_spec.2.2.2 _ [] 3 rfl⟩

/-- Claim C5: the plain extractor maps an even state to candidate bit
0 and an odd state to 1; the secure extractor inverts the polarity,
even to 1 and odd to 0. -/
theorem bit_mapping_spec :
    (∀ n : Nat, n % 2 = 0 →
      CollatzGenerator.plainBit n = '0' ∧ SecureCollatz.secureBit n = '1')
  ∧ (∀ n : Nat, n % 2 = 1 →
      CollatzGenerator.plainBit n = '1' ∧ SecureCollatz.secureBit n = '0') := by
  refine ⟨fun n h => ⟨?_, ?_⟩, fun n h => ⟨?_, ?_⟩⟩ <;>
    simp [CollatzGenerator.plainBit, SecureCollatz.secureBit, h]

/-- Witness for bit_mapping_spec at the even state 2 and the odd
state 3. -/
theorem bit_mapping_spec_witness :
    (CollatzGenerator.plainBit 2 = '0' ∧ SecureCollatz.secureBit 2 = '1')
  ∧ (CollatzGenerator.plainBit 3 = '1' ∧ SecureCollatz.secureBit 3 = '0') :=
  ⟨bit_mapping_spec.1 2 rfl, bit_mapping_spec.2 3 rfl⟩

/-- Claim C2, amended: for every odd length both generators signal the
configuration error immediately, before any generation work; the
result does not depend on the seed, the entropy stream, the digest
oracle or the key, so no randomness is consumed.  The error path is
print + sys.exit(1), which terminates the host process (SystemExit is
caught nowhere in either program), so the error is fatal to the host
process, not only to the generation request. -/
theorem odd_length_exits_without_randomness :
    (∀ seed length fuel : Nat, length % 2 = 1 →
      CollatzGenerator.generate_password seed length fuel = GenResult.exit 1)
  ∧ (∀ (H : List Nat → List Nat → List Nat) (entropy : Nat → Nat) (key : List Nat)
      (length fuel : Nat), length % 2 = 1 →
      SecureCollatz.generate_secure_password H entropy key length fuel = GenResult.exit 1) := by
  constructor
  · intro seed length fuel h
    simp [CollatzGenerator.generate_password, h]
  · intro H entropy key length fuel h
    simp [SecureCollatz.generate_secure_password, h]

/-- Witness for odd_length_exits_without_randomness at length 7 for
the plain generator and length 5 for the secure one. -/
theorem odd_length_exits_without_randomness_witness :
    CollatzGenerator.generate_password 1 7 4 = GenResult.exit 1
  ∧ SecureCollatz.generate_secure_password (fun _ _ => []) (fun _ => 0) [] 5 2
      = GenResult.exit 1 :=
  ⟨odd_length_exits_without_randomness.1 1 7 4 rfl,
   odd_length_exits_without_randomness.2 _ _ _ 5 2 rfl⟩

lemma plainBit_cases (n : Nat) :
    CollatzGenerator.plainBit n = '0' ∨ CollatzGenerator.plainBit n = '1' := by
  unfold CollatzGenerator.plainBit
  split <;> simp

lemma secureBit_cases (n : Nat) :
    SecureCollatz.secureBit n = '0' ∨ SecureCollatz.secureBit n = '1' := by
  by_cases h : n % 2 = 0 <;> simp [SecureCollatz.secureBit, h]

/-- The acceptance check preserves the extractor invariant: counters
mirror the character counts, stay within quota, and the accumulator
length is the sum of the counters with every character 0 or 1. -/
lemma acceptBit_zero_acc (req zeros ones : Nat) (pw : List Char) (h : zeros < req) :
    acceptBit req '0' zeros ones pw = ⟨zeros + 1, ones, pw ++ ['0']⟩ := by
  simp [acceptBit, h]

lemma acceptBit_zero_full (req zeros ones : Nat) (pw : List Char) (h : ¬ zeros < req) :
    acceptBit req '0' zeros ones pw = ⟨zeros, ones, pw⟩ := by
  simp [acceptBit, h]

lemma acceptBit_one_acc (req zeros ones : Nat) (pw : List Char) (h : ones < req) :
    acceptBit req '1' zeros ones pw = ⟨zeros, ones + 1, pw ++ ['1']⟩ := by
  simp [acceptBit, h]

lemma acceptBit_one_full (req zeros ones : Nat) (pw : List Char) (h : ¬ ones < req) :
    acceptBit req '1' zeros ones pw = ⟨zeros, ones, pw⟩ := by
  simp [acceptBit, h]

lemma acceptBit_inv (req : Nat) (bit : Char) (zeros ones : Nat) (pw : List Char)
    (hbit : bit = '0' ∨ bit = '1')
    (h0 : pw.count '0' = zeros) (h1 : pw.count '1' = ones)
    (hlen : pw.length = zeros + ones) (hz : zeros ≤ req) (ho : ones ≤ req)
    (hmem : ∀ c ∈ pw, c = '0' ∨ c = '1') :
    (acceptBit req bit zeros ones pw).pw.count '0' = (acceptBit req bit zeros ones pw).zeros
  ∧ (acceptBit req bit zeros ones pw).pw.count '1' = (acceptBit req bit zeros ones pw).ones
  ∧ (acceptBit req bit zeros ones pw).pw.length
      = (acceptBit req bit zeros ones pw).zeros + (acceptBit req bit zeros ones pw).ones
  ∧ (acceptBit req bit zeros ones pw).zeros ≤ req
  ∧ (acceptBit req bit zeros ones pw).ones ≤ req
  ∧ ∀ c ∈ (acceptBit req bit zeros ones pw).pw, c = '0' ∨ c = '1' := by
  rcases hbit with rfl | rfl
  · by_cases h : zeros < req
    · rw [acceptBit_zero_acc req zeros ones pw h]
      refine ⟨?_, ?_, ?_, by show zeros + 1 ≤ req; omega, ho, ?_⟩
      · simp [List.count_append, List.count_singleton']; omega
      · simp [List.count_append, List.count_singleton']; omega
      · simp [List.length_append]; omega
      · intro c hc
        rcases List.mem_append.1 hc with hc | hc
        · exact hmem c hc
        · simp at hc
          subst hc
          exact Or.inl rfl
    · rw [acceptBit_zero_full req zeros ones pw h]
      exact ⟨h0, h1, hlen, hz, ho, hmem⟩
  · by_cases h : ones < req
    · rw [acceptBit_one_acc req zeros ones pw h]
      refine ⟨?_, ?_, ?_, hz, by show ones + 1 ≤ req; omega, ?_⟩
      · simp [List.count_append, List.count_singleton']; omega
      · simp [List.count_append, List.count_singleton']; omega
      · simp [List.length_append]; omega
      · intro c hc
        rcases List.mem_append.1 hc with hc | hc
        · exact hmem c hc
        · simp at hc
          subst hc
          exact Or.inr rfl
    · rw [acceptBit_one_full req zeros ones pw h]
      exact ⟨h0, h1, hlen, hz, ho, hmem⟩

/-- If the extraction loop returns, its output has exactly 2·req
characters, req of them 0 and req of them 1. -/
lemma extractLoop_balanced {σ : Type} (bitOf : σ → Char) (stepf : σ → σ) (req : Nat)
    (hbit : ∀ st, bitOf st = '0' ∨ bitOf st = '1') :
    ∀ (fuel : Nat) (st : σ) (zeros ones : Nat) (pw pwf : List Char) (stf : σ),
      pw.count '0' = zeros → pw.count '1' = ones → pw.length = zeros + ones →
      zeros ≤ req → ones ≤ req → (∀ c ∈ pw, c = '0' ∨ c = '1') →
      extractLoop bitOf stepf (2 * req) req fuel st zeros ones pw = some (pwf, stf) →
      pwf.length = 2 * req ∧ pwf.count '0' = req ∧ pwf.count '1' = req ∧
        ∀ c ∈ pwf, c = '0' ∨ c = '1' := by
  intro fuel
  induction fuel with
  | zero => intro st zeros ones pw pwf stf _ _ _ _ _ _ h; simp [extractLoop] at h
  | succ fuel ih =>
    intro st zeros ones pw pwf stf h0 h1 hlen hz ho hmem h
    rw [extractLoop] at h
    by_cases hlt : pw.length < 2 * req
    · rw [if_pos hlt] at h
      obtain ⟨a0, a1, alen, az, ao, amem⟩ :=
        acceptBit_inv req (bitOf st) zeros ones pw (hbit st) h0 h1 hlen hz ho hmem
      exact ih (stepf st) _ _ _ pwf stf a0 a1 alen az ao amem h
    · rw [if_neg hlt] at h
      obtain ⟨rfl, rfl⟩ : pw = pwf ∧ st = stf := by
        simpa using h
      have : zeros = req ∧ ones = req := by omega
      refine ⟨by omega, ?_, ?_, hmem⟩ <;> omega

/-- Claim C1: for every even length, whenever generation terminates,
the returned string of either variant has exactly length characters
drawn from the set of the characters 0 and 1, with count of 0 equal to
count of 1 equal to length / 2. -/
theorem balanced_output_of_ok :
    (∀ seed length fuel : Nat, ∀ pw : List Char, length % 2 = 0 →
      CollatzGenerator.generate_password seed length fuel = GenResult.ok pw →
      pw.length = length ∧ pw.count '0' = length / 2 ∧ pw.count '1' = length / 2 ∧
        ∀ c ∈ pw, c = '0' ∨ c = '1')
  ∧ (∀ (H : List Nat → List Nat → List Nat) (entropy : Nat → Nat) (key : List Nat)
      (length fuel : Nat) (pw : List Char), length % 2 = 0 →
      SecureCollatz.generate_secure_password H entropy key length fuel = GenResult.ok pw →
      pw.length = length ∧ pw.count '0' = length / 2 ∧ pw.count '1' = length / 2 ∧
        ∀ c ∈ pw, c = '0' ∨ c = '1') := by
  have hL : ∀ length : Nat, length % 2 = 0 → length = 2 * (length / 2) := by omega
  constructor
  · intro seed length fuel pw hev h
    unfold CollatzGenerator.generate_password at h
    rw [if_neg (by omega)] at h
    rcases heq : extractLoop CollatzGenerator.plainBit CollatzGenerator.collatz_step
        length (length / 2) fuel seed 0 0 [] with _ | ⟨pwf, stf⟩ <;> rw [heq] at h
    · exact absurd h (by simp)
    · obtain rfl : pwf = pw := by simpa using h
      nth_rewrite 1 [hL length hev] at heq
      have := extractLoop_balanced CollatzGenerator.plainBit CollatzGenerator.collatz_step
        (length / 2) (fun st => plainBit_cases st) fuel seed 0 0 [] pwf stf
        (by simp) (by simp) (by simp) (by omega) (by omega) (by simp) heq
      refine ⟨by omega, this.2.1, this.2.2.1, this.2.2.2⟩
  · intro H entropy key length fuel pw hev h
    unfold SecureCollatz.generate_secure_password at h
    rw [if_neg (by omega)] at h
    rcases heq : extractLoop (fun st => SecureCollatz.secureBit st.n)
        (SecureCollatz.secureAdvance H entropy) length (length / 2) fuel
        ⟨key, entropy 0, 1⟩ 0 0 [] with _ | ⟨pwf, stf⟩ <;> rw [heq] at h
    · exact absurd h (by simp)
    · obtain rfl : pwf = pw := by simpa using h
      nth_rewrite 1 [hL length hev] at heq
      have := extractLoop_balanced (fun st : SecureCollatz.SecState => SecureCollatz.secureBit st.n)
        (SecureCollatz.secureAdvance H entropy) (length / 2)
        (fun st => secureBit_cases st.n) fuel ⟨key, entropy 0, 1⟩ 0 0 [] pwf stf
        (by simp) (by simp) (by simp) (by omega) (by omega) (by simp) heq
      refine ⟨by omega, this.2.1, this.2.2.1, this.2.2.2⟩

/-- Witness for balanced_output_of_ok: the plain generator at seed 6,
length 4 yields the string 0101; the secure generator with a constant
digest oracle, the constant entropy stream 3 and empty key at length 2
yields the string 01. -/
theorem balanced_output_of_ok_witness :
    (['0', '1', '0', '1'].length = 4 ∧ ['0', '1', '0', '1'].count '0' = 4 / 2 ∧
      ['0', '1', '0', '1'].count '1' = 4 / 2 ∧
      ∀ c ∈ ['0', '1', '0', '1'], c = '0' ∨ c = '1')
  ∧ (['0', '1'].length = 2 ∧ ['0', '1'].count '0' = 2 / 2 ∧
      ['0', '1'].count '1' = 2 / 2 ∧ ∀ c ∈ ['0', '1'], c = '0' ∨ c = '1') :=
  ⟨balanced_output_of_ok.1 6 4 10 ['0', '1', '0', '1'] rfl (by decide),
   balanced_output_of_ok.2 (fun _ _ => [0, 0, 0, 1]) (fun _ => 3) [] 2 10 ['0', '1']
     rfl (by decide)⟩

/-- Claim C6: the per-iteration behaviour of both extraction loops.
The acceptance check appends at most one character and never edits the
existing ones; a discarded candidate (its quota exhausted) leaves the
accumulator and both counters unchanged; the counters never exceed the
quota req = length / 2 and always mirror the character counts; the
accumulator length never exceeds the target length; and one loop
iteration always hands the stepped state to the next iteration,
whether or not the candidate was accepted. -/
theorem extractor_iteration_invariant :
    ∀ (req : Nat) (bit : Char) (zeros ones : Nat) (pw : List Char), bit = '0' ∨ bit = '1' →
      ((acceptBit req bit zeros ones pw).pw = pw ∨
        (acceptBit req bit zeros ones pw).pw = pw ++ [bit])
    ∧ ((acceptBit req bit zeros ones pw).pw = pw →
        (acceptBit req bit zeros ones pw).zeros = zeros ∧
          (acceptBit req bit zeros ones pw).ones = ones)
    ∧ (bit = '0' → ¬ zeros < req → acceptBit req bit zeros ones pw = ⟨zeros, ones, pw⟩)
    ∧ (bit = '1' → ¬ ones < req → acceptBit req bit zeros ones pw = ⟨zeros, ones, pw⟩)
    ∧ (zeros ≤ req → (acceptBit req bit zeros ones pw).zeros ≤ req)
    ∧ (ones ≤ req → (acceptBit req bit zeros ones pw).ones ≤ req)
    ∧ (pw.count '0' = zeros → (acceptBit req bit zeros ones pw).pw.count '0'
        = (acceptBit req bit zeros ones pw).zeros)
    ∧ (pw.count '1' = ones → (acceptBit req bit zeros ones pw).pw.count '1'
        = (acceptBit req bit zeros ones pw).ones)
    ∧ (∀ L : Nat, pw.length < L → (acceptBit req bit zeros ones pw).pw.length ≤ L)
    ∧ (∀ (σ : Type) (bitOf : σ → Char) (stepf : σ → σ) (length fuel : Nat) (st : σ),
        bitOf st = bit → pw.length < length →
        extractLoop bitOf stepf length req (fuel + 1) st zeros ones pw
          = extractLoop bitOf stepf length req fuel (stepf st)
              (acceptBit req bit zeros ones pw).zeros
              (acceptBit req bit zeros ones pw).ones
              (acceptBit req bit zeros ones pw).pw) := by
  intro req bit zeros ones pw hbit
  refine ⟨?_, ?_, ?_, ?_, ?_, ?_, ?_, ?_, ?_, ?_⟩
  · rcases hbit with rfl | rfl <;> by_cases h : zeros < req <;> by_cases h' : ones < req <;>
      simp [acceptBit, h, h']
  · rcases hbit with rfl | rfl <;> by_cases h : zeros < req <;> by_cases h' : ones < req <;>
      simp [acceptBit, h, h']
  · rintro rfl h
    exact acceptBit_zero_full req zeros ones pw h
  · rintro rfl h
    exact acceptBit_one_full req zeros ones pw h
  · rcases hbit with rfl | rfl <;> by_cases h : zeros < req <;> by_cases h' : ones < req <;>
      simp [acceptBit, h, h'] <;> omega
  · rcases hbit with rfl | rfl <;> by_cases h : zeros < req <;> by_cases h' : ones < req <;>
      simp [acceptBit, h, h'] <;> omega
  · rcases hbit with rfl | rfl <;> by_cases h : zeros < req <;> by_cases h' : ones < req <;>
      simp [acceptBit, h, h', List.count_append, List.count_singleton']
  · rcases hbit with rfl | rfl <;> by_cases h : zeros < req <;> by_cases h' : ones < req <;>
      simp [acceptBit, h, h', List.count_append, List.count_singleton']
  · intro L hL
    rcases hbit with rfl | rfl <;> by_cases h : zeros < req <;> by_cases h' : ones < req <;>
      simp [acceptBit, h, h', List.length_append] <;> omega
  · intro σ bitOf stepf length fuel st hst hlen
    rw [extractLoop, if_pos hlen, hst]

/-- Witness for extractor_iteration_invariant at req 1, candidate bit
0, empty accumulator and zero counters. -/
theorem extractor_iteration_invariant_witness :
    ((acceptBit 1 '0' 0 0 []).pw = [] ∨ (acceptBit 1 '0' 0 0 []).pw = [] ++ ['0'])
  ∧ (0 ≤ 1 → (acceptBit 1 '0' 0 0 []).zeros ≤ 1) :=
  ⟨(extractor_iteration_invariant 1 '0' 0 0 [] (Or.inl rfl)).1,
   (extractor_iteration_invariant 1 '0' 0 0 [] (Or.inl rfl)).2.2.2.2.1⟩

/-- With seed 0 the plain recurrence is stuck at 0, so the accumulator
is always a block of the character 0 and the loop never fills the ones
quota: no amount of fuel makes it return. -/
lemma zero_loop_stalls (req : Nat) (hreq : 1 ≤ req) :
    ∀ fuel zeros : Nat, zeros ≤ req →
      extractLoop CollatzGenerator.plainBit CollatzGenerator.collatz_step (2 * req) req fuel
        0 zeros 0 (List.replicate zeros '0') = none := by
  intro fuel
  induction fuel with
  | zero => intro zeros _; rfl
  | succ fuel ih =>
    intro zeros hz
    have hlen : (List.replicate zeros '0').length < 2 * req := by
      rw [List.length_replicate]; omega
    rw [extractLoop, if_pos hlen]
    rw [show CollatzGenerator.plainBit 0 = '0' from rfl,
        show CollatzGenerator.collatz_step 0 = 0 from rfl]
    by_cases h : zeros < req
    · rw [acceptBit_zero_acc req zeros 0 (List.replicate zeros '0') h,
          ← List.replicate_succ']
      exact ih (zeros + 1) (by omega)
    · rw [acceptBit_zero_full req zeros 0 (List.replicate zeros '0') h]
      exact ih zeros hz

/-- Claim C10: with seed 0 the plain generator never terminates for
any even length of at least 2 — collatz_step fixes 0, the candidate
bit is always 0, and once the zeros quota is filled nothing is ever
appended again, so every fuel bound is exhausted. -/
theorem seed_zero_diverges :
    CollatzGenerator.collatz_step 0 = 0
  ∧ CollatzGenerator.plainBit 0 = '0'
  ∧ ∀ length fuel : Nat, length % 2 = 0 → 2 ≤ length →
      CollatzGenerator.generate_password 0 length fuel = GenResult.fuelOut := by
  refine ⟨rfl, rfl, ?_⟩
  intro length fuel hev h2
  unfold CollatzGenerator.generate_password
  rw [if_neg (by omega)]
  have hreq : 1 ≤ length / 2 := by omega
  have hL : length = 2 * (length / 2) := by omega
  have hnone : extractLoop CollatzGenerator.plainBit CollatzGenerator.collatz_step
      (2 * (length / 2)) (length / 2) fuel 0 0 0 [] = none := by
    have := zero_loop_stalls (length / 2) hreq fuel 0 (Nat.zero_le _)
    simpa using this
  nth_rewrite 1 [hL]
  rw [hnone]

/-- Witness for seed_zero_diverges: at length 2 with fuel 7 the plain
generator with seed 0 still has not returned. -/
theorem seed_zero_diverges_witness :
    CollatzGenerator.generate_password 0 2 7 = GenResult.fuelOut :=
  seed_zero_diverges.2.2 2 7 rfl (by omega)

/-- Claim C7: in the secure pipeline the degeneracy guard runs after
every step.  The advance leaves the session key untouched (also across
any number of iterations), replaces a stepped value of at most 1 by
the next fresh draw of the 256-bit entropy stream while bumping the
stream index, keeps a stepped value above 1 as is, and every iteration
of the secure extraction loop hands exactly this guarded advance to
the next iteration. -/
theorem degeneracy_guard_spec :
    ∀ (H : List Nat → List Nat → List Nat) (entropy : Nat → Nat)
      (st : SecureCollatz.SecState),
      (SecureCollatz.secureAdvance H entropy st).key = st.key
    ∧ (SecureCollatz.secure_collatz_step H st.n st.key ≤ 1 →
        (SecureCollatz.secureAdvance H entropy st).n = entropy st.idx ∧
          (SecureCollatz.secureAdvance H entropy st).idx = st.idx + 1)
    ∧ (1 < SecureCollatz.secure_collatz_step H st.n st.key →
        (SecureCollatz.secureAdvance H entropy st).n
            = SecureCollatz.secure_collatz_step H st.n st.key ∧
          (SecureCollatz.secureAdvance H entropy st).idx = st.idx)
    ∧ ((∀ i, entropy i < 2 ^ 256) → SecureCollatz.secure_collatz_step H st.n st.key ≤ 1 →
        (SecureCollatz.secureAdvance H entropy st).n < 2 ^ 256)
    ∧ (∀ m : Nat, ((SecureCollatz.secureAdvance H entropy)^[m] st).key = st.key)
    ∧ (∀ (length req fuel zeros ones : Nat) (pw : List Char), pw.length < length →
        extractLoop (fun s => SecureCollatz.secureBit s.n)
            (SecureCollatz.secureAdvance H entropy) length req (fuel + 1) st zeros ones pw
          = extractLoop (fun s => SecureCollatz.secureBit s.n)
              (SecureCollatz.secureAdvance H entropy) length req fuel
              (SecureCollatz.secureAdvance H entropy st)
              (acceptBit req (SecureCollatz.secureBit st.n) zeros ones pw).zeros
              (acceptBit req (SecureCollatz.secureBit st.n) zeros ones pw).ones
              (acceptBit req (SecureCollatz.secureBit st.n) zeros ones pw).pw) := by
  intro H entropy st
  have hkey : (SecureCollatz.secureAdvance H entropy st).key = st.key := by
    by_cases hc : SecureCollatz.secure_collatz_step H st.n st.key ≤ 1 <;>
      simp [SecureCollatz.secureAdvance, hc]
  refine ⟨hkey, ?_, ?_, ?_, ?_, ?_⟩
  · intro hc
    constructor <;> simp [SecureCollatz.secureAdvance, hc]
  · intro hc
    constructor <;> simp [SecureCollatz.secureAdvance, hc, Nat.not_le.2 hc]
  · intro hent hc
    have : (SecureCollatz.secureAdvance H entropy st).n = entropy st.idx := by
      simp [SecureCollatz.secureAdvance, hc]
    rw [this]
    exact hent st.idx
  · intro m
    induction m with
    | zero => rfl
    | succ m ih =>
      rw [Function.iterate_succ_apply']
      have : (SecureCollatz.secureAdvance H entropy
          ((SecureCollatz.secureAdvance H entropy)^[m] st)).key
          = ((SecureCollatz.secureAdvance H entropy)^[m] st).key := by
        by_cases hc : SecureCollatz.secure_collatz_step H
            ((SecureCollatz.secureAdvance H entropy)^[m] st).n
            ((SecureCollatz.secureAdvance H entropy)^[m] st).key ≤ 1 <;>
          simp [SecureCollatz.secureAdvance, hc]
      rw [this, ih]
  · intro length req fuel zeros ones pw hlen
    rw [extractLoop, if_pos hlen]

/-- Witness for degeneracy_guard_spec at a state whose keyed step
lands on 1: with the all-ones digest oracle, the constant entropy
stream 7, empty key, state value 2 and stream index 5, the guard
reseeds to 7 and bumps the index to 6, the key stays empty, and the
reseeded value is below 2 to the 256. -/
theorem degeneracy_guard_spec_witness :
    (SecureCollatz.secureAdvance (fun _ _ => [0, 0, 0, 1]) (fun _ => 7)
        ⟨[], 2, 5⟩).key = ([] : List Nat)
  ∧ ((SecureCollatz.secureAdvance (fun _ _ => [0, 0, 0, 1]) (fun _ => 7)
        ⟨[], 2, 5⟩).n = 7
      ∧ (SecureCollatz.secureAdvance (fun _ _ => [0, 0, 0, 1]) (fun _ => 7)
          ⟨[], 2, 5⟩).idx = 5 + 1)
  ∧ (SecureCollatz.secureAdvance (fun _ _ => [0, 0, 0, 1]) (fun _ => 7)
        ⟨[], 2, 5⟩).n < 2 ^ 256 :=
  ⟨(degeneracy_guard_spec (fun _ _ => [0, 0, 0, 1]) (fun _ => 7) ⟨[], 2, 5⟩).1,
   (degeneracy_guard_spec (fun _ _ => [0, 0, 0, 1]) (fun _ => 7) ⟨[], 2, 5⟩).2.1
     (by decide),
   (degeneracy_guard_spec (fun _ _ => [0, 0, 0, 1]) (fun _ => 7) ⟨[], 2, 5⟩).2.2.2.1
     (fun i => by decide) (by decide)⟩

lemma toBytesBE_length : ∀ len n : Nat, (SecureCollatz.toBytesBE len n).length = len := by
  intro len
  induction len with
  | zero => intro n; rfl
  | succ len ih =>
    intro n
    simp [SecureCollatz.toBytesBE, ih]

lemma toBytesBE_mem_lt : ∀ len n : Nat, ∀ b ∈ SecureCollatz.toBytesBE len n, b < 256 := by
  intro len
  induction len with
  | zero => intro n b hb; simp [SecureCollatz.toBytesBE] at hb
  | succ len ih =>
    intro n b hb
    rcases List.mem_append.1 hb with hb | hb
    · exact ih (n / 256) b hb
    · simp at hb
      subst hb
      exact Nat.mod_lt _ (by norm_num)

lemma fromBytesBE_append_single (bs : List Nat) (b : Nat) :
    SecureCollatz.fromBytesBE (bs ++ [b]) = 256 * SecureCollatz.fromBytesBE bs + b := by
  simp [SecureCollatz.fromBytesBE, List.foldl_append]
  ring

lemma fromBytesBE_toBytesBE : ∀ len n : Nat, n < 256 ^ len →
    SecureCollatz.fromBytesBE (SecureCollatz.toBytesBE len n) = n := by
  intro len
  induction len with
  | zero =>
    intro n hn
    interval_cases n
    rfl
  | succ len ih =>
    intro n hn
    have hdiv : n / 256 < 256 ^ len := by
      rw [Nat.div_lt_iff_lt_mul (by norm_num)]
      calc n < 256 ^ (len + 1) := hn
        _ = 256 ^ len * 256 := by ring
    rw [SecureCollatz.toBytesBE, fromBytesBE_append_single, ih (n / 256) hdiv]
    omega

lemma fromBytesBE_foldl_lt : ∀ (bs : List Nat) (acc : Nat), (∀ b ∈ bs, b < 256) →
    List.foldl (fun acc b => acc * 256 + b) acc bs < (acc + 1) * 256 ^ bs.length := by
  intro bs
  induction bs with
  | nil =>
    intro acc _
    simp only [List.length_nil, pow_zero, Nat.mul_one]
    exact Nat.lt_succ_self acc
  | cons b bs ih =>
    intro acc hmem
    have hb : b < 256 := hmem b (List.mem_cons_self b bs)
    have h1 := ih (acc * 256 + b) (fun x hx => hmem x (List.mem_cons_of_mem b hx))
    calc List.foldl (fun acc b => acc * 256 + b) (acc * 256 + b) bs
        < (acc * 256 + b + 1) * 256 ^ bs.length := h1
      _ ≤ ((acc + 1) * 256) * 256 ^ bs.length :=
          Nat.mul_le_mul_right _ (by omega)
      _ = (acc + 1) * 256 ^ (bs.length + 1) := by ring

lemma fromBytesBE_lt (bs : List Nat) (h : ∀ b ∈ bs, b < 256) :
    SecureCollatz.fromBytesBE bs < 256 ^ bs.length := by
  simpa [SecureCollatz.fromBytesBE] using fromBytesBE_foldl_lt bs 0 h

lemma pow256 (k : Nat) : 2 ^ (8 * k) = 256 ^ k := by
  rw [pow_mul]
  norm_num

lemma one_le_byteLen (n : Nat) : 1 ≤ SecureCollatz.byteLen n := by
  by_cases h : (Nat.size n + 7) / 8 = 0 <;> (simp [SecureCollatz.byteLen, h]; try omega)

lemma size_le_byteLen (n : Nat) : Nat.size n ≤ 8 * SecureCollatz.byteLen n := by
  by_cases h : (Nat.size n + 7) / 8 = 0 <;> simp [SecureCollatz.byteLen, h] <;> omega

lemma lt_pow_byteLen (n : Nat) : n < 256 ^ SecureCollatz.byteLen n :=
  calc n < 2 ^ Nat.size n := Nat.lt_size_self n
    _ ≤ 2 ^ (8 * SecureCollatz.byteLen n) :=
        Nat.pow_le_pow_right (by norm_num) (size_le_byteLen n)
    _ = 256 ^ SecureCollatz.byteLen n := pow256 _

lemma byteLen_min (n L : Nat) (hL : 1 ≤ L) (h : n < 256 ^ L) :
    SecureCollatz.byteLen n ≤ L := by
  have hs : Nat.size n ≤ 8 * L := Nat.size_le.2 (by rw [pow256]; exact h)
  by_cases h0 : (Nat.size n + 7) / 8 = 0 <;> simp [SecureCollatz.byteLen, h0] <;> omega

/-- Claim C4: generate_k_derived serializes n as the minimal-length
big-endian byte sequence (at least 1 byte even for n = 0), feeds it to
the keyed digest under key, reads the first 4 digest bytes as a
big-endian unsigned integer, and returns that value with only 0
remapped to 1.  The concrete conjuncts show that an even candidate 2
is returned unchanged (no oddness constraint), a candidate 1 is
returned unchanged (no not-1 constraint), and a candidate 0 becomes
1. -/
theorem k_derivation_spec :
    (∀ (H : List Nat → List Nat → List Nat) (key : List Nat) (n : Nat),
      ∃ bs : List Nat, MinimalBE n bs ∧
        SecureCollatz.generate_k_derived H n key =
          (if SecureCollatz.fromBytesBE ((H key bs).take 4) = 0 then 1
           else SecureCollatz.fromBytesBE ((H key bs).take 4)))
  ∧ SecureCollatz.generate_k_derived (fun _ _ => [0, 0, 0, 2]) 0 [] = 2
  ∧ SecureCollatz.generate_k_derived (fun _ _ => [0, 0, 0, 1]) 0 [] = 1
  ∧ SecureCollatz.generate_k_derived (fun _ _ => [0, 0, 0, 0]) 5 [] = 1 := by
  refine ⟨?_, by decide, by decide, by decide⟩
  intro H key n
  refine ⟨SecureCollatz.toBytesBE (SecureCollatz.byteLen n) n, ⟨?_, ?_, ?_, ?_⟩, rfl⟩
  · exact toBytesBE_mem_lt _ n
  · exact fromBytesBE_toBytesBE _ n (lt_pow_byteLen n)
  · rw [toBytesBE_length]
    exact one_le_byteLen n
  · intro bs' hne hb hval
    rw [toBytesBE_length]
    refine byteLen_min n bs'.length ?_ ?_
    · cases bs' with
      | nil => exact absurd rfl hne
      | cons x xs => simp
    · rw [← hval]
      exact fromBytesBE_lt bs' hb

/-- Witness for k_derivation_spec: the serialization produced for
n = 300 under the all-zero digest oracle.  300 serializes to the two
bytes 1 and 44 and the digest truncates to candidate 0, remapped
to 1. -/
theorem k_derivation_spec_witness :
    ∃ bs : List Nat, MinimalBE 300 bs ∧
      SecureCollatz.generate_k_derived (fun _ _ => [0, 0, 0, 0]) 300 [] =
        (if SecureCollatz.fromBytesBE (((fun _ _ => [0, 0, 0, 0]) ([] : List Nat) bs).take 4) = 0
         then 1
         else SecureCollatz.fromBytesBE (((fun _ _ => [0, 0, 0, 0]) ([] : List Nat) bs).take 4)) :=
  k_derivation_spec.1 (fun _ _ => [0, 0, 0, 0]) [] 300

/-- Claim C2 counterexample: at the concrete odd length 3 both
generators take the print-and-sys.exit(1) path, and an uncaught
SystemExit terminates the host process, so the error is fatal to the
host process — refuting the clause of the claim that says it is not. -/
theorem odd_length_exit_is_host_fatal :
    CollatzGenerator.generate_password 0 3 0 = GenResult.exit 1
  ∧ SecureCollatz.generate_secure_password (fun _ _ => []) (fun _ => 0) [] 3 0
      = GenResult.exit 1
  ∧ resultExitsProcess (GenResult.exit 1) = true := by
  decide

lemma adjacentChanges_eq : ∀ s : List Char,
    SecureCollatz.adjacentChanges s = specAdjacentChanges s
  | [] => rfl
  | [_] => rfl
  | a :: b :: rest => by
    have ih := adjacentChanges_eq (b :: rest)
    simp only [specAdjacentChanges, List.tail_cons, List.zip_cons_cons,
      List.filter_cons] at ih ⊢
    by_cases hab : b = a
    · subst hab
      simp [SecureCollatz.adjacentChanges, ih]
    · simp [SecureCollatz.adjacentChanges, hab, Ne.symm hab, ih]
      omega

lemma zScore_eq_of_pos (s : List Char) (h : 1 < s.length)
    (hv : 0 < SecureCollatz.variance s) :
    SecureCollatz.zScore s
      = ((SecureCollatz.runsCount s : ℝ) - ((SecureCollatz.expectedRuns s : ℚ) : ℝ))
        / Real.sqrt ((SecureCollatz.variance s : ℚ) : ℝ) := by
  have hcast : (0 : ℝ) < ((SecureCollatz.variance s : ℚ) : ℝ) := by exact_mod_cast hv
  unfold SecureCollatz.zScore
  rw [if_pos h, if_pos (Real.sqrt_pos.2 hcast)]

lemma zScore_eq_zero_of_nonpos (s : List Char) (hv : SecureCollatz.variance s ≤ 0) :
    SecureCollatz.zScore s = 0 := by
  unfold SecureCollatz.zScore
  by_cases h : 1 < s.length
  · rw [if_pos h]
    have hcast : ((SecureCollatz.variance s : ℚ) : ℝ) ≤ 0 := by exact_mod_cast hv
    have hz : Real.sqrt ((SecureCollatz.variance s : ℚ) : ℝ) = 0 :=
      Real.sqrt_eq_zero'.2 hcast
    rw [hz, if_neg (lt_irrefl 0)]
  · rw [if_neg h]

lemma variance_formula (s : List Char) (h : 1 < s.length) :
    SecureCollatz.variance s
      = ((2 * (SecureCollatz.n0 s) * (SecureCollatz.n1 s)
          * (2 * (SecureCollatz.n0 s) * (SecureCollatz.n1 s) - (s.length : ℤ)) : ℤ) : ℚ)
        / (((s.length : ℤ) ^ 2 * ((s.length : ℤ) - 1) : ℤ) : ℚ) := by
  have hden : ((s.length : ℤ) ^ 2 * ((s.length : ℤ) - 1)) ≠ 0 := by
    have h2 : (1 : ℤ) < (s.length : ℤ) := by exact_mod_cast h
    exact mul_ne_zero (pow_ne_zero 2 (by omega)) (by omega)
  simp [SecureCollatz.variance, h, hden]

/-- Claim C9: on the empty bit string the evaluator returns before
either test, skipping the chi-square evaluation and the runs report,
and the runs-count and z-score formulas themselves give 0 runs and a
z-score of 0.0 there. -/
theorem empty_input_skips_tests :
    SecureCollatz.perform_statistical_tests [] = none
  ∧ SecureCollatz.runsCount [] = 0
  ∧ SecureCollatz.zScore [] = 0 := by
  refine ⟨?_, rfl, ?_⟩
  · unfold SecureCollatz.perform_statistical_tests
    simp
  · unfold SecureCollatz.zScore
    simp

/-- Claim C8: the runs test computes runs as 1 plus the number of
adjacent changes for every non-empty bit string, expected runs as
1 + 2 n0 n1 / n, the variance as 2 n0 n1 (2 n0 n1 - n) over n^2 (n-1)
when n > 1, the z-score as (runs - expected) over the square root of
the variance when the variance is positive and 0.0 otherwise, and
passes exactly when the z-score lies in [-1.96, 1.96]; on the string
0101 it computes 4 runs, expected 3.0, a z-score between 1.2247 and
1.2248, and passes. -/
theorem runs_test_spec :
    (∀ s : List Char, s ≠ [] →
      SecureCollatz.runsCount s = 1 + specAdjacentChanges s)
  ∧ (∀ s : List Char, SecureCollatz.expectedRuns s
      = 1 + (2 * (SecureCollatz.n0 s) * (SecureCollatz.n1 s) : ℚ) / (s.length : ℚ))
  ∧ (∀ s : List Char, 1 < s.length → SecureCollatz.variance s
      = ((2 * (SecureCollatz.n0 s) * (SecureCollatz.n1 s)
          * (2 * (SecureCollatz.n0 s) * (SecureCollatz.n1 s) - (s.length : ℤ)) : ℤ) : ℚ)
        / (((s.length : ℤ) ^ 2 * ((s.length : ℤ) - 1) : ℤ) : ℚ))
  ∧ (∀ s : List Char, 1 < s.length → 0 < SecureCollatz.variance s →
      SecureCollatz.zScore s
        = ((SecureCollatz.runsCount s : ℝ) - ((SecureCollatz.expectedRuns s : ℚ) : ℝ))
          / Real.sqrt ((SecureCollatz.variance s : ℚ) : ℝ))
  ∧ (∀ s : List Char, SecureCollatz.variance s ≤ 0 → SecureCollatz.zScore s = 0)
  ∧ (∀ s : List Char, SecureCollatz.runsTestPass s ↔
      (-1.96 ≤ SecureCollatz.zScore s ∧ SecureCollatz.zScore s ≤ 1.96))
  ∧ SecureCollatz.runsCount exBits = 4
  ∧ SecureCollatz.expectedRuns exBits = 3
  ∧ (1.2247 ≤ SecureCollatz.zScore exBits ∧ SecureCollatz.zScore exBits ≤ 1.2248)
  ∧ SecureCollatz.runsTestPass exBits := by
  have hn0 : SecureCollatz.n0 exBits = 2 := by decide
  have hn1 : SecureCollatz.n1 exBits = 2 := by decide
  have hlen : exBits.length = 4 := by decide
  have h1 : (1 : Nat) < exBits.length := by decide
  have hv : SecureCollatz.variance exBits = 2 / 3 := by
    rw [variance_formula exBits h1, hn0, hn1, hlen]
    norm_num
  have hexp : SecureCollatz.expectedRuns exBits = 3 := by
    unfold SecureCollatz.expectedRuns
    rw [hn0, hn1, hlen]
    norm_num
  have hzex : SecureCollatz.zScore exBits = 1 / Real.sqrt ((2 : ℝ) / 3) := by
    have hvpos : 0 < SecureCollatz.variance exBits := by rw [hv]; norm_num
    rw [zScore_eq_of_pos exBits h1 hvpos, hv,
        show SecureCollatz.runsCount exBits = 4 from by decide, hexp]
    push_cast
    norm_num
  have hr2 : Real.sqrt ((2 : ℝ) / 3) ^ 2 = 2 / 3 := Real.sq_sqrt (by norm_num)
  have hrpos : 0 < Real.sqrt ((2 : ℝ) / 3) := Real.sqrt_pos.2 (by norm_num)
  have hlow : (1.2247 : ℝ) ≤ 1 / Real.sqrt ((2 : ℝ) / 3) := by
    rw [le_div_iff₀ hrpos]
    nlinarith [hr2, hrpos]
  have hhigh : 1 / Real.sqrt ((2 : ℝ) / 3) ≤ (1.2248 : ℝ) := by
    rw [div_le_iff₀ hrpos]
    nlinarith [hr2, hrpos]
  refine ⟨?_, fun s => rfl, fun s h => variance_formula s h,
    fun s h hv => zScore_eq_of_pos s h hv,
    fun s hv => zScore_eq_zero_of_nonpos s hv,
    fun s => Iff.rfl, by decide, hexp,
    ⟨by rw [hzex]; exact hlow, by rw [hzex]; exact hhigh⟩, ?_⟩
  · intro s hs
    unfold SecureCollatz.runsCount
    rw [if_pos (List.length_pos.2 hs), adjacentChanges_eq]
  · show -1.96 ≤ SecureCollatz.zScore exBits ∧ SecureCollatz.zScore exBits ≤ 1.96
    rw [hzex]
    constructor <;> linarith [hlow, hhigh]

/-- Witness for runs_test_spec at the two-character string 01. -/
theorem runs_test_spec_witness :
    SecureCollatz.runsCount ['0', '1'] = 1 + specAdjacentChanges ['0', '1'] :=
  runs_test_spec.1 ['0', '1'] (by decide)
